import Mathlib

/-!
Verification of the mp2p peer-membership and bootstrap code.

The repository holds two near-duplicate variants of a libp2p node
(`mp2p.go`): variant 1 uses the protocol "/mp2p/bootstrap" with the
membership map `peerMap` guarded by `sm`, variant 2 uses "/p2p/dht"
with `peerIpfsMap` guarded by `m`.  The membership map is modelled as
an association list with Go-map update semantics; external
collaborators (multiaddr parsing, dialing, key marshalling, the
filesystem) are modelled as oracle parameters, and `encoding/json`
is modelled for the string-array subset actually exchanged.
-/

namespace Mp2p

/-- The membership map (Go `map[string]string`): peer id to connect string.
Modelled as an association list whose position order is irrelevant
(Go map iteration order is unspecified). -/
abbrev PeerMap := List (String × String)

/-- The key set of the membership map. -/
def mapKeys (m : PeerMap) : List String :=
  m.map Prod.fst

/-- Go map read `m[k]`: the value stored at a key, if any. -/
def mapLookup : PeerMap → String → Option String
  | [], _ => Option.none
  | (k, v) :: rest, key => if k = key then Option.some v else mapLookup rest key

/-- Go map assignment `m[key] = val`: overwrite the entry if the key is
present, otherwise add it. -/
def mapUpsert : PeerMap → String → String → PeerMap
  | [], key, val => [(key, val)]
  | (k, v) :: rest, key, val =>
    if k = key then (key, val) :: rest
    else (k, v) :: mapUpsert rest key val

/-- The collection loop of both stream handlers: iterate the map, skip the
entry whose key equals the requesting peer's id, collect the values. -/
def collectOthers : PeerMap → String → List String
  | [], _ => []
  | (k, v) :: rest, peerId =>
    if k = peerId then collectOthers rest peerId
    else v :: collectOthers rest peerId

/-- The synthesized connect string `strings.Join` of the remote multiaddr,
"/ipfs/" and the remote peer id. -/
def synthAddr (peerMa peerId : String) : String :=
  peerMa ++ "/ipfs/" ++ peerId

/-- Variant 1 `handleBootstrapStream`, caching step: prefer the payload
carried in the request; if it is empty, synthesize from the remote endpoint. -/
def upsertSender (m : PeerMap) (peerId peerMa text : String) : PeerMap :=
  if text ≠ "" then mapUpsert m peerId text
  else mapUpsert m peerId (synthAddr peerMa peerId)

/-- JSON string quoting, as produced by `encoding/json` (an external
collaborator) for strings containing no characters that need escaping. -/
def jsonQuote (s : String) : String :=
  "\"" ++ s ++ "\""

/-- `json.Marshal` of a `[]string`, for elements needing no escapes. -/
def jsonMarshalStringArray (l : List String) : String :=
  "[" ++ String.intercalate "," (l.map jsonQuote) ++ "]"

/-- The response-encoding step shared by both handlers: `jsonText` starts as
the literal "[]" and is replaced by `json.Marshal` only when the collected
list is non-empty. -/
def encodeResponse (maArray : List String) : String :=
  if maArray.length > 0 then jsonMarshalStringArray maArray else "[]"

/-- The discovery response list built by variant 1's handler for a request
from `peerId`: collect every other entry of the map after caching the sender. -/
def discoveryResponseList (m : PeerMap) (peerId peerMa text : String) : List String :=
  collectOthers (upsertSender m peerId peerMa text) peerId

/-- Variant 1 `handleBootstrapStream` after the request line has been read:
returns the updated map and the bytes written back on the stream. -/
def handleBootstrapStream (m : PeerMap) (peerId peerMa text : String) :
    PeerMap × String :=
  let m2 := upsertSender m peerId peerMa text
  let others := collectOthers m2 peerId
  (m2, encodeResponse others ++ "\n")

/-- The discovery response list built by variant 2's handler (it always
synthesizes the sender's connect string from the remote endpoint). -/
def handleStreamResponseList (m : PeerMap) (peerId peerMa : String) : List String :=
  collectOthers (mapUpsert m peerId (synthAddr peerMa peerId)) peerId

/-- Variant 2 `handleStream` after the request line has been read: dispatch
on the two recognized literals; any other message falls through the switch
with no reply and no map change.  The second component is the reply written,
`Option.none` meaning nothing is written. -/
def handleStream (m : PeerMap) (peerId peerMa txt : String) :
    PeerMap × Option String :=
  if txt = "引导" then
    let m2 := mapUpsert m peerId (synthAddr peerMa peerId)
    let others := collectOthers m2 peerId
    (m2, Option.some (encodeResponse others ++ "\n"))
  else if txt = "你好" then
    (m, Option.some "Fine!\n")
  else
    (m, Option.none)

/-- Variant 1 `bootstrap`, request write: `strings.Join` of `natAddr` and
the two-character literal "/n" (this is what line 173 of the source writes). -/
def bootstrapRequest (natAddr : String) : String :=
  natAddr ++ "/n"

/-- Variant 2 `bootstrap`, request write: the fixed discovery marker
followed by a newline. -/
def bootstrapRequestV2 : String :=
  "引导\n"

/-- Variant 1 `bootstrap`, per-entry merge loop over the decoded response
list: parse (skip entry on failure), dial (skip entry on failure), and only
then cache the entry in the map.  `parse` models `textToAddrInfo` (returning
the derived peer id) and `dialOK` models the outcome of `node.Connect`. -/
def bootstrapLoop (parse : String → Option String) (dialOK : String → Bool) :
    PeerMap → List String → PeerMap
  | m, [] => m
  | m, v :: rest =>
    match parse v with
    | Option.none => bootstrapLoop parse dialOK m rest
    | Option.some pid =>
      if dialOK v then bootstrapLoop parse dialOK (mapUpsert m pid v) rest
      else bootstrapLoop parse dialOK m rest

/-- Variant 2 `updatePeer`, per-entry merge loop over the decoded response
list: parse (skip entry on failure) and cache the entry; no dialing. -/
def updatePeer (parse : String → Option String) :
    PeerMap → List String → PeerMap
  | m, [] => m
  | m, v :: rest =>
    match parse v with
    | Option.none => updatePeer parse m rest
    | Option.some pid => updatePeer parse (mapUpsert m pid v) rest

/-- Join/leave events logged by the reconciliation goroutine
("发现节点" and "失去节点"). -/
inductive PeerEvent where
  | joined : String → PeerEvent
  | left : String → PeerEvent
deriving DecidableEq

/-- First loop of the reconciliation tick: walk the visible peer ids; any id
already in the map is skipped, any new id is logged as joined and inserted
with an empty connect string. -/
def insertPhase : PeerMap → List String → PeerMap × List PeerEvent
  | m, [] => (m, [])
  | m, pid :: rest =>
    if pid ∈ mapKeys m then insertPhase m rest
    else
      let r := insertPhase (mapUpsert m pid "") rest
      (r.1, PeerEvent.joined pid :: r.2)

/-- Second loop of the reconciliation tick: walk the map; any key absent
from the visible id set is logged as left and deleted. -/
def deletePhase : PeerMap → List String → PeerMap × List PeerEvent
  | [], _ => ([], [])
  | (k, v) :: rest, vis =>
    let r := deletePhase rest vis
    if k ∈ vis then ((k, v) :: r.1, r.2)
    else (r.1, PeerEvent.left k :: r.2)

/-- One reconciliation tick of variant 1's background goroutine, given the
snapshot `visible` of `kadDHT.RoutingTable().ListPeers()`: the insert loop
followed by the delete loop, all under one `sm.Lock` critical section. -/
def reconcileTick (m : PeerMap) (visible : List String) :
    PeerMap × List PeerEvent :=
  let ins := insertPhase m visible
  let del := deletePhase ins.1 visible
  (del.1, ins.2 ++ del.2)

/-- Filesystem oracle for `rsaKey`: whether the key directory exists,
whether `MkdirAll` succeeds, and the bytes `ReadFile` yields for each key
file (`Option.none` models a read error, after which the Go code passes a
nil slice on). -/
structure KeyDirFS where
  dirExists : Bool
  mkdirOK : Bool
  readPrivate : Option (List Nat)
  readPublic : Option (List Nat)

/-- `rsaKey`: load-or-generate the key pair.  Key generation and
unmarshalling (external crypto collaborators) are oracles; `Option.none`
components model Go's nil keys.  Faithful to the source: a `MkdirAll`
failure is logged and the function returns with nil keys; `WriteFile`,
`ReadFile` and unmarshal errors are discarded with `_`; the signature has
no error result at all. -/
def rsaKey {κ : Type} (fs : KeyDirFS) (genPriv genPub : κ)
    (unmarshalPriv unmarshalPub : List Nat → Option κ) :
    Option κ × Option κ :=
  if !fs.dirExists then
    if !fs.mkdirOK then (Option.none, Option.none)
    else (Option.some genPriv, Option.some genPub)
  else
    (unmarshalPriv (fs.readPrivate.getD []),
     unmarshalPub (fs.readPublic.getD []))

/-- Body of a JSON string after its opening quote, for strings containing
no escape sequences: consume characters up to the closing quote. -/
def parseStringBody : List Char → Option (String × List Char)
  | [] => Option.none
  | c :: rest =>
    if c = '"' then Option.some ("", rest)
    else
      match parseStringBody rest with
      | Option.some (s, r) => Option.some (String.mk (c :: s.data), r)
      | Option.none => Option.none

/-- Elements of a non-empty JSON string array, fuelled by the input length:
a quoted string followed by either a comma and more elements or the closing
bracket. -/
def parseElems : Nat → List Char → Option (List String × List Char)
  | 0, _ => Option.none
  | Nat.succ n, cs =>
    match cs with
    | '"' :: rest =>
      match parseStringBody rest with
      | Option.some (s, r) =>
        match r with
        | ',' :: r2 =>
          match parseElems n r2 with
          | Option.some (l, rr) => Option.some (s :: l, rr)
          | Option.none => Option.none
        | ']' :: r2 => Option.some ([s], r2)
        | _ => Option.none
      | Option.none => Option.none
    | _ => Option.none

/-- `json.Unmarshal` into a `[]string` (external collaborator), modelled
from the JSON grammar for the whitespace-free string-array subset the
protocol exchanges. -/
def jsonDecodeStringArray (text : String) : Option (List String) :=
  match text.data with
  | '[' :: ']' :: rest => if rest.isEmpty then Option.some [] else Option.none
  | '[' :: cs =>
    match parseElems cs.length cs with
    | Option.some (l, rem) => if rem.isEmpty then Option.some l else Option.none
    | Option.none => Option.none
  | _ => Option.none

/-- Lock held at a membership-map access site. -/
inductive LockState where
  | unlocked : LockState
  | rlocked : LockState
  | wlocked : LockState
deriving DecidableEq

/-- One membership-map access site in the source: the lock held there and
whether the site mutates the map. -/
structure MapAccess where
  lock : LockState
  isWrite : Bool
deriving DecidableEq

/-- Variant 1 `handleBootstrapStream`: the sender upsert runs between
`sm.Lock` and `sm.Unlock`, the collection loop between `sm.RLock` and
`sm.RUnlock`. -/
def handleBootstrapStreamLockTrace : List MapAccess :=
  [MapAccess.mk LockState.wlocked true, MapAccess.mk LockState.rlocked false]

/-- Variant 2 `handleStream`, discovery branch: upsert under `m.Lock`,
collection loop under `m.RLock`. -/
def handleStreamLockTrace : List MapAccess :=
  [MapAccess.mk LockState.wlocked true, MapAccess.mk LockState.rlocked false]

/-- Variant 1 reconciliation goroutine: the existence checks, inserts,
deletes and the final `len(peerMap)` all sit inside one `sm.Lock` section. -/
def reconcileLockTrace : List MapAccess :=
  [MapAccess.mk LockState.wlocked false, MapAccess.mk LockState.wlocked true,
   MapAccess.mk LockState.wlocked false, MapAccess.mk LockState.wlocked true,
   MapAccess.mk LockState.wlocked false]

/-- Variant 1 `bootstrap`, merge loop: the cache write
`peerMap[addrInfo.ID.String()] = v` takes no lock. -/
def bootstrapLockTrace : List MapAccess :=
  [MapAccess.mk LockState.unlocked true]

/-- Variant 2 `updatePeer`: the cache write `peerIpfsMap[...] = v` takes
no lock. -/
def updatePeerLockTrace : List MapAccess :=
  [MapAccess.mk LockState.unlocked true]

/-- Variant 2 `Init`: the `range peerIpfsMap` loop feeding `sayHi` reads
the map with no lock. -/
def initRangeLockTrace : List MapAccess :=
  [MapAccess.mk LockState.unlocked false]

/-- All membership-map access sites of both variants. -/
def allMapAccesses : List MapAccess :=
  handleBootstrapStreamLockTrace ++ handleStreamLockTrace ++
    reconcileLockTrace ++ bootstrapLockTrace ++ updatePeerLockTrace ++
    initRangeLockTrace

/-- Whether the exclusive lock is the one held. -/
def isWLocked : LockState → Bool
  | LockState.wlocked => true
  | _ => false

/-- The write half of the claimed lock discipline: a mutating access holds
the exclusive lock. -/
def exclusiveWriteDiscipline (a : MapAccess) : Bool :=
  !a.isWrite || isWLocked a.lock

/-! ### Helper lemmas about the map model -/

theorem mem_mapKeys_upsert (m : PeerMap) (pid val k : String) :
    k ∈ mapKeys (mapUpsert m pid val) ↔ k = pid ∨ k ∈ mapKeys m := by
  induction m with
  | nil => simp [mapUpsert, mapKeys]
  | cons p rest ih =>
    obtain ⟨k0, v0⟩ := p
    by_cases h : k0 = pid
    · subst h
      simp [mapUpsert, mapKeys]
    · simp [mapUpsert, h, mapKeys] at ih ⊢
      tauto

theorem mapLookup_upsert_self (m : PeerMap) (pid val : String) :
    mapLookup (mapUpsert m pid val) pid = Option.some val := by
  induction m with
  | nil => simp [mapUpsert, mapLookup]
  | cons p rest ih =>
    obtain ⟨k0, v0⟩ := p
    by_cases h : k0 = pid
    · subst h
      simp [mapUpsert, mapLookup]
    · simp [mapUpsert, mapLookup, h, ih]

theorem mapLookup_upsert_ne (m : PeerMap) (pid val k : String) (hk : k ≠ pid) :
    mapLookup (mapUpsert m pid val) k = mapLookup m k := by
  induction m with
  | nil =>
    simp [mapUpsert, mapLookup]
    intro h
    exact absurd h.symm hk
  | cons p rest ih =>
    obtain ⟨k0, v0⟩ := p
    by_cases h : k0 = pid
    · subst h
      have h2 : ¬ (k0 = k) := fun h => hk h.symm
      simp [mapUpsert, mapLookup, h2]
    · simp [mapUpsert, mapLookup, h, ih]

theorem mem_upsert_ne (m : PeerMap) (pid val k v : String) (hk : k ≠ pid) :
    (k, v) ∈ mapUpsert m pid val ↔ (k, v) ∈ m := by
  induction m with
  | nil =>
    simp [mapUpsert]
    intro h
    exact absurd h hk
  | cons p rest ih =>
    obtain ⟨k0, v0⟩ := p
    by_cases h : k0 = pid
    · subst h
      simp [mapUpsert]
      constructor
      · rintro (⟨h1, h2⟩ | hm)
        · exact absurd h1 hk
        · exact Or.inr hm
      · rintro (⟨h1, h2⟩ | hm)
        · exact absurd h1 hk
        · exact Or.inr hm
    · simp [mapUpsert, h, ih]

theorem mem_collectOthers (m : PeerMap) (peerId v : String) :
    v ∈ collectOthers m peerId ↔ ∃ k, k ≠ peerId ∧ (k, v) ∈ m := by
  induction m with
  | nil => simp [collectOthers]
  | cons p rest ih =>
    obtain ⟨k0, v0⟩ := p
    by_cases h : k0 = peerId
    · subst h
      simp [collectOthers, ih]
      constructor
      · rintro ⟨k, hk, hm⟩
        exact ⟨k, hk, Or.inr hm⟩
      · rintro ⟨k, hk, (⟨h1, h2⟩ | hm)⟩
        · exact absurd h1 hk
        · exact ⟨k, hk, hm⟩
    · simp [collectOthers, h, ih]
      constructor
      · rintro (rfl | ⟨k, hk, hm⟩)
        · exact ⟨k0, h, Or.inl ⟨rfl, rfl⟩⟩
        · exact ⟨k, hk, Or.inr hm⟩
      · rintro ⟨k, hk, (⟨h1, h2⟩ | hm)⟩
        · subst h1; subst h2; exact Or.inl rfl
        · exact Or.inr ⟨k, hk, hm⟩

/-! ### Helper lemmas about the reconciliation phases -/

theorem mem_keys_insertPhase (vis : List String) (m : PeerMap) (k : String) :
    k ∈ mapKeys (insertPhase m vis).1 ↔ k ∈ mapKeys m ∨ k ∈ vis := by
  induction vis generalizing m with
  | nil => simp [insertPhase]
  | cons pid rest ih =>
    by_cases h : pid ∈ mapKeys m
    · simp only [insertPhase, if_pos h, ih, List.mem_cons]
      constructor
      · rintro (hm | hr)
        · exact Or.inl hm
        · exact Or.inr (Or.inr hr)
      · rintro (hm | rfl | hr)
        · exact Or.inl hm
        · exact Or.inl h
        · exact Or.inr hr
    · simp only [insertPhase, if_neg h, ih, mem_mapKeys_upsert, List.mem_cons]
      tauto

theorem joined_mem_insertPhase (vis : List String) (m : PeerMap) (k : String) :
    PeerEvent.joined k ∈ (insertPhase m vis).2 ↔ k ∈ vis ∧ k ∉ mapKeys m := by
  induction vis generalizing m with
  | nil => simp [insertPhase]
  | cons pid rest ih =>
    by_cases h : pid ∈ mapKeys m
    · simp only [insertPhase, if_pos h, ih, List.mem_cons]
      constructor
      · rintro ⟨hr, hm⟩
        exact ⟨Or.inr hr, hm⟩
      · rintro ⟨rfl | hr, hm⟩
        · exact absurd h hm
        · exact ⟨hr, hm⟩
    · simp only [insertPhase, if_neg h, List.mem_cons, PeerEvent.joined.injEq, ih,
        mem_mapKeys_upsert]
      constructor
      · rintro (rfl | ⟨hr, hm⟩)
        · exact ⟨Or.inl rfl, h⟩
        · exact ⟨Or.inr hr, fun hkm => hm (Or.inr hkm)⟩
      · rintro ⟨rfl | hr, hm⟩
        · exact Or.inl rfl
        · by_cases hkp : k = pid
          · exact Or.inl hkp
          · exact Or.inr ⟨hr, by rintro (h1 | h2); exact hkp h1; exact hm h2⟩

theorem left_not_mem_insertPhase (vis : List String) (m : PeerMap) (k : String) :
    PeerEvent.left k ∉ (insertPhase m vis).2 := by
  induction vis generalizing m with
  | nil => simp [insertPhase]
  | cons pid rest ih =>
    by_cases h : pid ∈ mapKeys m
    · simp only [insertPhase, if_pos h]
      exact ih m
    · simp only [insertPhase, if_neg h, List.mem_cons]
      rintro (h1 | h2)
      · exact PeerEvent.noConfusion h1
      · exact ih _ h2

theorem lookup_insertPhase_of_mem (vis : List String) (m : PeerMap) (k : String)
    (hk : k ∈ mapKeys m) :
    mapLookup (insertPhase m vis).1 k = mapLookup m k := by
  induction vis generalizing m with
  | nil => simp [insertPhase]
  | cons pid rest ih =>
    by_cases h : pid ∈ mapKeys m
    · simp only [insertPhase, if_pos h]
      exact ih m hk
    · have hne : k ≠ pid := fun he => h (he ▸ hk)
      simp only [insertPhase, if_neg h]
      rw [ih _ ((mem_mapKeys_upsert m pid "" k).mpr (Or.inr hk))]
      exact mapLookup_upsert_ne m pid "" k hne

theorem lookup_insertPhase_of_new (vis : List String) (m : PeerMap) (k : String)
    (hk : k ∉ mapKeys m) (hv : k ∈ vis) :
    mapLookup (insertPhase m vis).1 k = Option.some "" := by
  induction vis generalizing m with
  | nil => exact absurd hv (List.not_mem_nil k)
  | cons pid rest ih =>
    by_cases h : pid ∈ mapKeys m
    · have hne : k ≠ pid := fun he => hk (he ▸ h)
      have hr : k ∈ rest := by
        rcases List.mem_cons.mp hv with h1 | h1
        · exact absurd h1 hne
        · exact h1
      simp only [insertPhase, if_pos h]
      exact ih m hk hr
    · simp only [insertPhase, if_neg h]
      by_cases hkp : k = pid
      · subst hkp
        rw [lookup_insertPhase_of_mem rest _ k
            ((mem_mapKeys_upsert m k "" k).mpr (Or.inl rfl))]
        exact mapLookup_upsert_self m k ""
      · have hr : k ∈ rest := by
          rcases List.mem_cons.mp hv with h1 | h1
          · exact absurd h1 hkp
          · exact h1
        have hk2 : k ∉ mapKeys (mapUpsert m pid "") := by
          rw [mem_mapKeys_upsert]
          rintro (h1 | h1)
          · exact hkp h1
          · exact hk h1
        exact ih _ hk2 hr

theorem mem_keys_deletePhase (m : PeerMap) (vis : List String) (k : String) :
    k ∈ mapKeys (deletePhase m vis).1 ↔ k ∈ mapKeys m ∧ k ∈ vis := by
  induction m with
  | nil => simp [deletePhase, mapKeys]
  | cons p rest ih =>
    obtain ⟨k0, v0⟩ := p
    by_cases h : k0 ∈ vis
    · simp only [deletePhase, if_pos h, mapKeys, List.map_cons, List.mem_cons] at ih ⊢
      constructor
      · rintro (rfl | hm)
        · exact ⟨Or.inl rfl, h⟩
        · have := ih.mp hm
          exact ⟨Or.inr this.1, this.2⟩
      · rintro ⟨rfl | hm, hv⟩
        · exact Or.inl rfl
        · exact Or.inr (ih.mpr ⟨hm, hv⟩)
    · simp only [deletePhase, if_neg h, mapKeys, List.map_cons, List.mem_cons] at ih ⊢
      constructor
      · intro hm
        have := ih.mp hm
        exact ⟨Or.inr this.1, this.2⟩
      · rintro ⟨rfl | hm, hv⟩
        · exact absurd hv h
        · exact ih.mpr ⟨hm, hv⟩

theorem left_mem_deletePhase (m : PeerMap) (vis : List String) (k : String) :
    PeerEvent.left k ∈ (deletePhase m vis).2 ↔ k ∈ mapKeys m ∧ k ∉ vis := by
  induction m with
  | nil => simp [deletePhase, mapKeys]
  | cons p rest ih =>
    obtain ⟨k0, v0⟩ := p
    by_cases h : k0 ∈ vis
    · simp only [deletePhase, if_pos h, mapKeys, List.map_cons, List.mem_cons] at ih ⊢
      rw [ih]
      constructor
      · rintro ⟨hm, hv⟩
        exact ⟨Or.inr hm, hv⟩
      · rintro ⟨rfl | hm, hv⟩
        · exact absurd h hv
        · exact ⟨hm, hv⟩
    · simp only [deletePhase, if_neg h, mapKeys, List.map_cons, List.mem_cons,
        PeerEvent.left.injEq] at ih ⊢
      rw [ih]
      constructor
      · rintro (rfl | ⟨hm, hv⟩)
        · exact ⟨Or.inl rfl, h⟩
        · exact ⟨Or.inr hm, hv⟩
      · rintro ⟨rfl | hm, hv⟩
        · exact Or.inl rfl
        · exact Or.inr ⟨hm, hv⟩

theorem joined_not_mem_deletePhase (m : PeerMap) (vis : List String) (k : String) :
    PeerEvent.joined k ∉ (deletePhase m vis).2 := by
  induction m with
  | nil => simp [deletePhase]
  | cons p rest ih =>
    obtain ⟨k0, v0⟩ := p
    by_cases h : k0 ∈ vis
    · simp only [deletePhase, if_pos h]
      exact ih
    · simp only [deletePhase, if_neg h, List.mem_cons]
      rintro (h1 | h2)
      · exact PeerEvent.noConfusion h1
      · exact ih h2

theorem lookup_deletePhase_of_mem (m : PeerMap) (vis : List String) (k : String)
    (hv : k ∈ vis) :
    mapLookup (deletePhase m vis).1 k = mapLookup m k := by
  induction m with
  | nil => simp [deletePhase]
  | cons p rest ih =>
    obtain ⟨k0, v0⟩ := p
    by_cases h : k0 ∈ vis
    · simp only [deletePhase, if_pos h, mapLookup]
      by_cases he : k0 = k
      · simp [he]
      · simp [he, ih]
    · have hne : k0 ≠ k := fun he => h (he ▸ hv)
      simp only [deletePhase, if_neg h, mapLookup, if_neg hne]
      exact ih

/-! ### Helper lemmas about the two merge loops -/

theorem mem_keys_bootstrapLoop (parse : String → Option String)
    (dialOK : String → Bool) (l : List String) (m : PeerMap) (k : String) :
    k ∈ mapKeys (bootstrapLoop parse dialOK m l) ↔
      k ∈ mapKeys m ∨ ∃ v, v ∈ l ∧ parse v = Option.some k ∧ dialOK v = true := by
  induction l generalizing m with
  | nil => simp [bootstrapLoop]
  | cons v rest ih =>
    cases hp : parse v with
    | none =>
      simp only [bootstrapLoop, hp, ih, List.mem_cons]
      constructor
      · rintro (hm | ⟨w, hw, hpw, hdw⟩)
        · exact Or.inl hm
        · exact Or.inr ⟨w, Or.inr hw, hpw, hdw⟩
      · rintro (hm | ⟨w, rfl | hw, hpw, hdw⟩)
        · exact Or.inl hm
        · rw [hp] at hpw
          exact Option.noConfusion hpw
        · exact Or.inr ⟨w, hw, hpw, hdw⟩
    | some pid =>
      by_cases hd : dialOK v = true
      · simp only [bootstrapLoop, hp, if_pos hd, ih, mem_mapKeys_upsert, List.mem_cons]
        constructor
        · rintro ((rfl | hm) | ⟨w, hw, hpw, hdw⟩)
          · exact Or.inr ⟨v, Or.inl rfl, hp, hd⟩
          · exact Or.inl hm
          · exact Or.inr ⟨w, Or.inr hw, hpw, hdw⟩
        · rintro (hm | ⟨w, rfl | hw, hpw, hdw⟩)
          · exact Or.inl (Or.inr hm)
          · rw [hp] at hpw
            exact Or.inl (Or.inl (Option.some.injEq _ _ ▸ hpw).symm)
          · exact Or.inr ⟨w, hw, hpw, hdw⟩
      · simp only [bootstrapLoop, hp, if_neg hd, ih, List.mem_cons]
        constructor
        · rintro (hm | ⟨w, hw, hpw, hdw⟩)
          · exact Or.inl hm
          · exact Or.inr ⟨w, Or.inr hw, hpw, hdw⟩
        · rintro (hm | ⟨w, rfl | hw, hpw, hdw⟩)
          · exact Or.inl hm
          · exact absurd hdw hd
          · exact Or.inr ⟨w, hw, hpw, hdw⟩

theorem mem_keys_updatePeer (parse : String → Option String)
    (l : List String) (m : PeerMap) (k : String) :
    k ∈ mapKeys (updatePeer parse m l) ↔
      k ∈ mapKeys m ∨ ∃ v, v ∈ l ∧ parse v = Option.some k := by
  induction l generalizing m with
  | nil => simp [updatePeer]
  | cons v rest ih =>
    cases hp : parse v with
    | none =>
      simp only [updatePeer, hp, ih, List.mem_cons]
      constructor
      · rintro (hm | ⟨w, hw, hpw⟩)
        · exact Or.inl hm
        · exact Or.inr ⟨w, Or.inr hw, hpw⟩
      · rintro (hm | ⟨w, rfl | hw, hpw⟩)
        · exact Or.inl hm
        · rw [hp] at hpw
          exact Option.noConfusion hpw
        · exact Or.inr ⟨w, hw, hpw⟩
    | some pid =>
      simp only [updatePeer, hp, ih, mem_mapKeys_upsert, List.mem_cons]
      constructor
      · rintro ((rfl | hm) | ⟨w, hw, hpw⟩)
        · exact Or.inr ⟨v, Or.inl rfl, hp⟩
        · exact Or.inl hm
        · exact Or.inr ⟨w, Or.inr hw, hpw⟩
      · rintro (hm | ⟨w, rfl | hw, hpw⟩)
        · exact Or.inl (Or.inr hm)
        · rw [hp] at hpw
          exact Or.inl (Or.inl (Option.some.injEq _ _ ▸ hpw).symm)
        · exact Or.inr ⟨w, hw, hpw⟩

theorem lookup_updatePeer_of_not_parsed (parse : String → Option String)
    (l : List String) (m : PeerMap) (k : String)
    (h : ∀ v, v ∈ l → parse v ≠ Option.some k) :
    mapLookup (updatePeer parse m l) k = mapLookup m k := by
  induction l generalizing m with
  | nil => simp [updatePeer]
  | cons v rest ih =>
    cases hp : parse v with
    | none =>
      simp only [updatePeer, hp]
      exact ih m (fun w hw => h w (List.mem_cons_of_mem v hw))
    | some pid =>
      have hpk : pid ≠ k := by
        intro he
        exact h v (List.mem_cons_self v rest) (he ▸ hp)
      simp only [updatePeer, hp]
      rw [ih _ (fun w hw => h w (List.mem_cons_of_mem v hw))]
      exact mapLookup_upsert_ne m pid v k (fun he => hpk he.symm)

theorem lookup_updatePeer_of_parsed (parse : String → Option String)
    (l : List String) (m : PeerMap) (k : String)
    (h : ∃ v, v ∈ l ∧ parse v = Option.some k) :
    ∃ w, w ∈ l ∧ parse w = Option.some k ∧
      mapLookup (updatePeer parse m l) k = Option.some w := by
  induction l generalizing m with
  | nil =>
    obtain ⟨v, hv, _⟩ := h
    exact absurd hv (List.not_mem_nil v)
  | cons v rest ih =>
    by_cases hr : ∃ w, w ∈ rest ∧ parse w = Option.some k
    · cases hp : parse v with
      | none =>
        obtain ⟨w, hw, hpw, hl⟩ := ih _ hr
        exact ⟨w, List.mem_cons_of_mem v hw, hpw, by simpa [updatePeer, hp] using hl⟩
      | some pid =>
        obtain ⟨w, hw, hpw, hl⟩ := ih (mapUpsert m pid v) hr
        exact ⟨w, List.mem_cons_of_mem v hw, hpw, by simpa [updatePeer, hp] using hl⟩
    · obtain ⟨v2, hv2, hpv2⟩ := h
      have hveq : v2 = v := by
        rcases List.mem_cons.mp hv2 with h1 | h1
        · exact h1
        · exact absurd ⟨v2, h1, hpv2⟩ hr
      subst hveq
      refine ⟨v2, List.mem_cons_self v2 rest, hpv2, ?_⟩
      simp only [updatePeer, hpv2]
      rw [lookup_updatePeer_of_not_parsed parse rest _ k
          (fun w hw hpw => hr ⟨w, hw, hpw⟩)]
      exact mapLookup_upsert_self m k v2

/-! ### Claim theorems -/

/-- C1: for every prior membership map and every visible set returned by the
routing table, one reconciliation tick makes the map's key set equal the
visible set exactly; a "joined" event fires exactly for the new ids, which
are inserted with an empty connect string; a "left" event fires exactly for
the dropped keys; surviving keys keep their value and are not reported. -/
theorem C1_reconcile_diff (m : PeerMap) (visible : List String) :
    (∀ k, k ∈ mapKeys (reconcileTick m visible).1 ↔ k ∈ visible) ∧
    (∀ k, PeerEvent.joined k ∈ (reconcileTick m visible).2 ↔
      k ∈ visible ∧ k ∉ mapKeys m) ∧
    (∀ k, PeerEvent.left k ∈ (reconcileTick m visible).2 ↔
      k ∈ mapKeys m ∧ k ∉ visible) ∧
    (∀ k, k ∈ mapKeys m → k ∈ visible →
      mapLookup (reconcileTick m visible).1 k = mapLookup m k) ∧
    (∀ k, k ∉ mapKeys m → k ∈ visible →
      mapLookup (reconcileTick m visible).1 k = Option.some "") := by
  refine ⟨?_, ?_, ?_, ?_, ?_⟩
  · intro k
    simp only [reconcileTick, mem_keys_deletePhase, mem_keys_insertPhase]
    constructor
    · rintro ⟨_, hv⟩
      exact hv
    · intro hv
      exact ⟨Or.inr hv, hv⟩
  · intro k
    simp only [reconcileTick, List.mem_append, joined_mem_insertPhase]
    constructor
    · rintro (h | h)
      · exact h
      · exact absurd h (joined_not_mem_deletePhase _ _ _)
    · exact Or.inl
  · intro k
    simp only [reconcileTick, List.mem_append, left_mem_deletePhase,
      mem_keys_insertPhase]
    constructor
    · rintro (h | ⟨h1 | h1, h2⟩)
      · exact absurd h (left_not_mem_insertPhase _ _ _)
      · exact ⟨h1, h2⟩
      · exact absurd h1 h2
    · rintro ⟨h1, h2⟩
      exact Or.inr ⟨Or.inl h1, h2⟩
  · intro k hm hv
    simp only [reconcileTick]
    rw [lookup_deletePhase_of_mem _ _ _ hv]
    exact lookup_insertPhase_of_mem visible m k hm
  · intro k hm hv
    simp only [reconcileTick]
    rw [lookup_deletePhase_of_mem _ _ _ hv]
    exact lookup_insertPhase_of_new visible m k hm hv

/-- Witness for C1 at a concrete prior map and visible set: with prior key
"a" and visible set containing only "b", the tick reports "b" joined and
"a" left, and the new key holds the empty connect string. -/
theorem C1_reconcile_diff_witness :
    PeerEvent.joined "b" ∈ (reconcileTick [("a", "x")] ["b"]).2 ∧
    PeerEvent.left "a" ∈ (reconcileTick [("a", "x")] ["b"]).2 ∧
    mapLookup (reconcileTick [("a", "x")] ["b"]).1 "b" = Option.some "" :=
  ⟨((C1_reconcile_diff [("a", "x")] ["b"]).2.1 "b").mpr (by decide),
   ((C1_reconcile_diff [("a", "x")] ["b"]).2.2.1 "a").mpr (by decide),
   (C1_reconcile_diff [("a", "x")] ["b"]).2.2.2.2 "b" (by decide) (by decide)⟩

/-- C2 is false on variant 1's merge loop: the entry "good" parses to peer
id "QmG", its dial fails, and the entry is NOT upserted — the map stays
empty, although the claim demands the upsert regardless of dial outcome. -/
theorem C2_counterexample :
    (fun v => if v = "good" then Option.some "QmG" else Option.none) "good"
      = Option.some "QmG" ∧
    bootstrapLoop
      (fun v => if v = "good" then Option.some "QmG" else Option.none)
      (fun _ => false) [] ["good"] = [] := by
  constructor
  · decide
  · decide

/-- C2 as amended: in variant 1's merge loop an entry is cached exactly when
it both parses and dials successfully (a dial failure skips that entry's
upsert but never aborts the remaining entries); in variant 2, `updatePeer`
caches every parsed entry with no dial involved. -/
theorem C2_dial_gated_upsert (parse : String → Option String)
    (dialOK : String → Bool) (m : PeerMap) (l : List String) (k : String) :
    (k ∈ mapKeys (bootstrapLoop parse dialOK m l) ↔
      k ∈ mapKeys m ∨ ∃ v, v ∈ l ∧ parse v = Option.some k ∧ dialOK v = true) ∧
    (k ∈ mapKeys (updatePeer parse m l) ↔
      k ∈ mapKeys m ∨ ∃ v, v ∈ l ∧ parse v = Option.some k) :=
  ⟨mem_keys_bootstrapLoop parse dialOK l m k, mem_keys_updatePeer parse l m k⟩

/-- Witness for C2's amended theorem: the same entry with a succeeding dial
is cached. -/
theorem C2_dial_gated_upsert_witness :
    "QmG" ∈ mapKeys (bootstrapLoop
      (fun v => if v = "good" then Option.some "QmG" else Option.none)
      (fun _ => true) [] ["good"]) :=
  ((C2_dial_gated_upsert
      (fun v => if v = "good" then Option.some "QmG" else Option.none)
      (fun _ => true) [] ["good"] "QmG").1).mpr
    (Or.inr ⟨"good", by decide, by decide, by decide⟩)

/-- C3 (code bug in variant 1): the discovery request is written as the
payload followed by the two characters slash and n — `strings.Join` with
the literal "/n" — so the written bytes do not end in a newline; variant 2's
request does end in a newline.  Evaluated at the concrete payload "abc". -/
theorem C3_request_terminator_eval :
    bootstrapRequest "abc" = "abc/n" ∧
    (bootstrapRequest "abc").data.getLast? = Option.some 'n' ∧
    bootstrapRequestV2.data.getLast? = Option.some '\n' := by
  refine ⟨?_, ?_, ?_⟩
  · decide
  · decide
  · decide

/-- C4 (code bug): the cache writes of variant 1's merge loop and of
variant 2's `updatePeer` mutate the membership map while holding no lock,
so the access traces violate the exclusive-write lock discipline the spec
states. -/
theorem C4_unsynchronized_write :
    MapAccess.mk LockState.unlocked true ∈ bootstrapLockTrace ∧
    MapAccess.mk LockState.unlocked true ∈ updatePeerLockTrace ∧
    allMapAccesses.all exclusiveWriteDiscipline = false := by
  decide

theorem mem_upsertSender_ne (m : PeerMap) (peerId peerMa text k v : String)
    (hk : k ≠ peerId) :
    (k, v) ∈ upsertSender m peerId peerMa text ↔ (k, v) ∈ m := by
  unfold upsertSender
  split
  · exact mem_upsert_ne m peerId text k v hk
  · exact mem_upsert_ne m peerId (synthAddr peerMa peerId) k v hk

/-- C5: the discovery response list either handler builds for peer P
contains the connect string of every map entry whose key differs from P and
contains only values coming from entries whose key differs from P — never
P's own entry. -/
theorem C5_self_exclusion (m : PeerMap) (peerId peerMa text : String) :
    (∀ k v, (k, v) ∈ m → k ≠ peerId →
      v ∈ discoveryResponseList m peerId peerMa text) ∧
    (∀ v, v ∈ discoveryResponseList m peerId peerMa text →
      ∃ k, k ≠ peerId ∧ (k, v) ∈ m) ∧
    (∀ k v, (k, v) ∈ m → k ≠ peerId →
      v ∈ handleStreamResponseList m peerId peerMa) ∧
    (∀ v, v ∈ handleStreamResponseList m peerId peerMa →
      ∃ k, k ≠ peerId ∧ (k, v) ∈ m) := by
  refine ⟨?_, ?_, ?_, ?_⟩
  · intro k v hm hk
    rw [discoveryResponseList, mem_collectOthers]
    exact ⟨k, hk, (mem_upsertSender_ne m peerId peerMa text k v hk).mpr hm⟩
  · intro v hv
    rw [discoveryResponseList, mem_collectOthers] at hv
    obtain ⟨k, hk, hmem⟩ := hv
    exact ⟨k, hk, (mem_upsertSender_ne m peerId peerMa text k v hk).mp hmem⟩
  · intro k v hm hk
    rw [handleStreamResponseList, mem_collectOthers]
    exact ⟨k, hk,
      (mem_upsert_ne m peerId (synthAddr peerMa peerId) k v hk).mpr hm⟩
  · intro v hv
    rw [handleStreamResponseList, mem_collectOthers] at hv
    obtain ⟨k, hk, hmem⟩ := hv
    exact ⟨k, hk,
      (mem_upsert_ne m peerId (synthAddr peerMa peerId) k v hk).mp hmem⟩

/-- Witness for C5: with one foreign entry in the map, its connect string
is in the response built for a different requesting peer. -/
theorem C5_self_exclusion_witness :
    "x" ∈ discoveryResponseList [("QmA", "x")] "QmB" "ma" "" :=
  (C5_self_exclusion [("QmA", "x")] "QmB" "ma" "").1 "QmA" "x"
    (by decide) (by decide)

/-- C6 is false on the code: `rsaKey` has no error result at all.  With a
failing directory creation it returns nil keys, and with present but
corrupt key files (unmarshal failing) it also returns nil keys — both
"successful" returns with absent keys, where the claim demands an IOError
or DecodeError report to the caller. -/
theorem C6_counterexample :
    rsaKey ⟨false, false, Option.none, Option.none⟩ (1 : Nat) 2
      (fun _ => Option.none) (fun _ => Option.none)
      = (Option.none, Option.none) ∧
    rsaKey ⟨true, true, Option.some [0], Option.some [0]⟩ (1 : Nat) 2
      (fun _ => Option.none) (fun _ => Option.none)
      = (Option.none, Option.none) :=
  ⟨rfl, rfl⟩

/-- C6 as amended: `rsaKey` reports no error to its caller — a failing
`MkdirAll` yields nil keys, and corrupt stored key bytes (unmarshal
failure) yield a nil key, in both cases returning normally. -/
theorem C6_no_error_report {κ : Type} (fs : KeyDirFS) (gp gu : κ)
    (up uu : List Nat → Option κ) :
    (fs.dirExists = false → fs.mkdirOK = false →
      rsaKey fs gp gu up uu = (Option.none, Option.none)) ∧
    (fs.dirExists = true → up (fs.readPrivate.getD []) = Option.none →
      (rsaKey fs gp gu up uu).1 = Option.none) := by
  obtain ⟨de, mk, rp, ru⟩ := fs
  constructor
  · rintro rfl rfl
    rfl
  · rintro rfl h
    simpa [rsaKey] using h

/-- Witness for C6's amended theorem at a concrete failing filesystem. -/
theorem C6_no_error_report_witness :
    rsaKey ⟨false, false, Option.none, Option.none⟩ (3 : Nat) 4
      (fun _ => Option.none) (fun _ => Option.none)
      = (Option.none, Option.none) :=
  (C6_no_error_report ⟨false, false, Option.none, Option.none⟩ 3 4
    (fun _ => Option.none) (fun _ => Option.none)).1 rfl rfl

/-- C7 is false on variant 1's merge loop (one of the claim's cited
operations): in a batch holding the malformed entry "bad" and the
well-formed entry "good", the well-formed entry is not installed when its
dial fails — the map stays empty — although the claim says every
well-formed entry is installed. -/
theorem C7_counterexample :
    (fun v => if v = "good" then Option.some "QmG" else Option.none) "bad"
      = Option.none ∧
    (fun v => if v = "good" then Option.some "QmG" else Option.none) "good"
      = Option.some "QmG" ∧
    bootstrapLoop
      (fun v => if v = "good" then Option.some "QmG" else Option.none)
      (fun _ => false) [] ["bad", "good"] = [] := by
  refine ⟨?_, ?_, ?_⟩
  · decide
  · decide
  · decide

/-- C7 as amended: each malformed entry is skipped individually and a parse
failure never aborts processing of the entries after it, in both merge
loops — a key is installed exactly when some entry of the whole batch
parses to it (and, in variant 1's loop, also dials successfully).  In
variant 2's `updatePeer` every well-formed entry is installed, its key
bound to one of the batch entries parsing to it; in variant 1's loop a
well-formed entry is installed only if its dial succeeds. -/
theorem C7_partial_batch_amended (parse : String → Option String)
    (dialOK : String → Bool) (m : PeerMap) (l : List String) :
    (∀ k, k ∈ mapKeys (updatePeer parse m l) ↔
      k ∈ mapKeys m ∨ ∃ v, v ∈ l ∧ parse v = Option.some k) ∧
    (∀ v k, v ∈ l → parse v = Option.some k →
      ∃ w, w ∈ l ∧ parse w = Option.some k ∧
        mapLookup (updatePeer parse m l) k = Option.some w) ∧
    (∀ k, k ∈ mapKeys (bootstrapLoop parse dialOK m l) ↔
      k ∈ mapKeys m ∨ ∃ v, v ∈ l ∧ parse v = Option.some k ∧ dialOK v = true) :=
  ⟨fun k => mem_keys_updatePeer parse l m k,
   fun v k hv hp => lookup_updatePeer_of_parsed parse l m k ⟨v, hv, hp⟩,
   fun k => mem_keys_bootstrapLoop parse dialOK l m k⟩

/-- Witness for C7's amended theorem: a batch with a malformed entry before
a well-formed one still installs the well-formed one in `updatePeer`. -/
theorem C7_partial_batch_amended_witness :
    ∃ w, w ∈ ["bad", "good"] ∧
      (fun v => if v = "good" then Option.some "QmG" else Option.none) w
        = Option.some "QmG" ∧
      mapLookup (updatePeer
        (fun v => if v = "good" then Option.some "QmG" else Option.none)
        [] ["bad", "good"]) "QmG" = Option.some w :=
  (C7_partial_batch_amended
    (fun v => if v = "good" then Option.some "QmG" else Option.none)
    (fun _ => false) [] ["bad", "good"]).2.1 "good" "QmG" (by decide) (by decide)

/-- C8: when every map entry belongs to the requesting peer, both handlers
write back exactly the two-character empty-array literal, newline
terminated, and JSON-decoding that literal yields the empty list. -/
theorem C8_empty_response (m : PeerMap) (peerId peerMa text : String)
    (h : ∀ p, p ∈ m → p.1 = peerId) :
    (handleBootstrapStream m peerId peerMa text).2 = "[]\n" ∧
    (handleStream m peerId peerMa "引导").2 = Option.some "[]\n" ∧
    jsonDecodeStringArray "[]" = Option.some [] := by
  have hco : collectOthers (upsertSender m peerId peerMa text) peerId = [] := by
    rw [List.eq_nil_iff_forall_not_mem]
    intro v hv
    rw [mem_collectOthers] at hv
    obtain ⟨k, hk, hmem⟩ := hv
    exact hk (h (k, v) ((mem_upsertSender_ne m peerId peerMa text k v hk).mp hmem))
  have hco2 : collectOthers (mapUpsert m peerId (synthAddr peerMa peerId)) peerId
      = [] := by
    rw [List.eq_nil_iff_forall_not_mem]
    intro v hv
    rw [mem_collectOthers] at hv
    obtain ⟨k, hk, hmem⟩ := hv
    exact hk (h (k, v)
      ((mem_upsert_ne m peerId (synthAddr peerMa peerId) k v hk).mp hmem))
  refine ⟨?_, ?_, ?_⟩
  · simp [handleBootstrapStream, hco, encodeResponse]
  · simp [handleStream, hco2, encodeResponse]
  · decide

/-- Witness for C8 at a concrete map holding only the requester's entry. -/
theorem C8_empty_response_witness :
    (handleBootstrapStream [("QmP", "x")] "QmP" "ma" "t").2 = "[]\n" :=
  (C8_empty_response [("QmP", "x")] "QmP" "ma" "t" (by decide)).1

/-- C9: every operation other than the reconciliation tick — both inbound
handlers and both outbound merge loops — only inserts or overwrites
entries: the key set afterwards is a superset of the key set before. -/
theorem C9_grow_only (m : PeerMap) (peerId peerMa text : String)
    (parse : String → Option String) (dialOK : String → Bool)
    (l : List String) (k : String) :
    (k ∈ mapKeys m → k ∈ mapKeys (handleBootstrapStream m peerId peerMa text).1) ∧
    (k ∈ mapKeys m → k ∈ mapKeys (handleStream m peerId peerMa text).1) ∧
    (k ∈ mapKeys m → k ∈ mapKeys (bootstrapLoop parse dialOK m l)) ∧
    (k ∈ mapKeys m → k ∈ mapKeys (updatePeer parse m l)) := by
  refine ⟨?_, ?_, ?_, ?_⟩
  · intro hk
    simp only [handleBootstrapStream, upsertSender]
    split
    · exact (mem_mapKeys_upsert m peerId text k).mpr (Or.inr hk)
    · exact (mem_mapKeys_upsert m peerId (synthAddr peerMa peerId) k).mpr
        (Or.inr hk)
  · intro hk
    simp only [handleStream]
    split
    · exact (mem_mapKeys_upsert m peerId (synthAddr peerMa peerId) k).mpr
        (Or.inr hk)
    · split
      · exact hk
      · exact hk
  · intro hk
    exact (mem_keys_bootstrapLoop parse dialOK l m k).mpr (Or.inl hk)
  · intro hk
    exact (mem_keys_updatePeer parse l m k).mpr (Or.inl hk)

/-- Witness for C9 at a concrete map and inbound request. -/
theorem C9_grow_only_witness :
    "a" ∈ mapKeys (handleBootstrapStream [("a", "x")] "p" "q" "t").1 :=
  (C9_grow_only [("a", "x")] "p" "q" "t" (fun _ => Option.none)
    (fun _ => false) [] "a").1 (by decide)

/-- C10 is false on variant 1's handler: it has no message dispatch at all,
so the unrecognized message "ping" is treated as a discovery request — the
sender is cached (the map changes) and a reply is written. -/
theorem C10_counterexample :
    ("ping" ≠ "引导" ∧ "ping" ≠ "你好") ∧
    handleBootstrapStream [] "QmA" "/ip4/9.9.9.9/udp/1/quic" "ping"
      = ([("QmA", "ping")], "[]\n") := by
  constructor
  · constructor
    · decide
    · decide
  · decide

/-- C10 as amended: variant 2's dispatching handler writes no reply and
leaves the map unchanged on any message that is neither the discovery
marker nor the greeting marker; variant 1's handler treats every message
as a discovery request. -/
theorem C10_unrecognized_silent (m : PeerMap) (peerId peerMa txt : String)
    (h1 : txt ≠ "引导") (h2 : txt ≠ "你好") :
    handleStream m peerId peerMa txt = (m, Option.none) := by
  simp [handleStream, h1, h2]

/-- Witness for C10's amended theorem at a concrete unrecognized message. -/
theorem C10_unrecognized_silent_witness :
    handleStream [("a", "x")] "p" "q" "ping" = ([("a", "x")], Option.none) :=
  C10_unrecognized_silent [("a", "x")] "p" "q" "ping" (by decide) (by decide)

end Mp2p
